import Mathlib

/-!
Shallow embedding of `src/python/camera/core/detection.py` (Synch.Live camera
core): colour-based marker detection, blob detection, frame annotation and
detection logging.

Modelling conventions:
* a frame handed to the detectors is a grid of pixels, each pixel a triple of
  natural-number channel values in OpenCV `BGR` order (after colour-space
  conversion the same triple type holds `HSV` values);
* the OpenCV primitives used by the code (`cvtColor`, `inRange`, `dilate`,
  `bitwise_and`, `findContours`, `contourArea`, `boundingRect`, `bitwise_not`)
  are not part of this repository; each is given an executable model that
  follows the spec's description of the corresponding pipeline step, and is
  doc-commented as such;
* logging (`logging.info`) is modelled by returning the list of emitted log
  lines, and `cv2.imwrite` by returning the list of `(filename, data)` writes,
  in emission order;
* Python's `/` on two numbers raises `ZeroDivisionError` when the divisor is
  zero; it is modelled as an `Option`-valued division, and functions whose
  body may raise return `Option`;
* the drawing primitives (`cv2.rectangle`, `cv2.putText`) rasterise onto the
  frame; they are modelled as appending drawing operations to a canvas that
  records the frame's dimensions and the ordered list of operations drawn on
  it.
-/

namespace SynchLive

/-- A pixel: three channel values, in OpenCV BGR order for colour frames
(H, S, V order after conversion to HSV). -/
abbrev Pixel : Type := ℕ × ℕ × ℕ

/-- A frame: a list of rows of pixels. -/
abbrev Image : Type := List (List Pixel)

/-- A single-channel image (a mask or a grayscale frame). -/
abbrev GrayImage : Type := List (List ℕ)

/-- An integer point (x, y) in pixel coordinates, x the column, y the row. -/
abbrev Pt : Type := ℤ × ℤ

/-- An axis-aligned integer rectangle (x, y, width, height). -/
abbrev IRect : Type := ℤ × ℤ × ℤ × ℤ

/-- Default lower HSV bound, `MIN_DETECT_HSV = [50, 100, 140]` (bright green). -/
def MIN_DETECT_HSV : Pixel := (50, 100, 140)

/-- Default upper HSV bound, `MAX_DETECT_HSV = [85, 255, 255]`. -/
def MAX_DETECT_HSV : Pixel := (85, 255, 255)

/-- Default minimum contour area, `MIN_DETECT_CONTOUR = 100`. -/
def MIN_DETECT_CONTOUR : ℤ := 100

/-- Default maximum contour area, `MAX_DETECT_CONTOUR = 400`. -/
def MAX_DETECT_CONTOUR : ℤ := 400

/-- Python's `str` of an integer (used by the f-strings in the source). -/
def pyIntRepr (n : ℤ) : String := toString n

/-- Python's `str` of a 4-tuple of integers, e.g. `"(1, 2, 3, 4)"`,
as produced by interpolating a box into an f-string. -/
def fmtBox (b : IRect) : String :=
  "(" ++ pyIntRepr b.1 ++ ", " ++ pyIntRepr b.2.1 ++ ", " ++
    pyIntRepr b.2.2.1 ++ ", " ++ pyIntRepr b.2.2.2 ++ ")"

/-- Source `log_detected(boxes)`: for each box, `logging.info(f'{i+1}, {box}')` in a
loop over `enumerate(boxes)`, then `logging.info(f"Found {len(boxes)} blobs in
frame.")`.  The log sink is modelled by returning the emitted lines in order. -/
def log_detected (boxes : List IRect) : List String :=
  (boxes.enum.foldl
    (fun log p => log ++ [pyIntRepr ((p.1 : ℤ) + 1) ++ ", " ++ fmtBox p.2]) [])
  ++ ["Found " ++ toString boxes.length ++ " blobs in frame."]

theorem foldl_append_singleton {α β : Type} (f : α → β) :
    ∀ (l : List α) (acc : List β),
      l.foldl (fun a x => a ++ [f x]) acc = acc ++ l.map f := by
  intro l
  induction l with
  | nil => intro acc; simp
  | cons x xs ih =>
    intro acc
    simp only [List.foldl_cons, List.map_cons]
    rw [ih]
    simp

/-- Claim C2: `log_detected` emits, in input order, exactly one line
`"{1-based index}, {box tuple}"` per box, then exactly one summary line
`"Found {count} blobs in frame."`; on `[]` it emits just the summary line, and
on `[(1,2,3,4)]` it emits `"1, (1, 2, 3, 4)"` then `"Found 1 blobs in
frame."`.  (The function is a pure observer of its input: the embedding
returns the emitted lines and leaves the box list untouched.) -/
theorem log_detected_lines :
    (∀ boxes : List IRect,
      log_detected boxes =
        boxes.enum.map (fun p => pyIntRepr ((p.1 : ℤ) + 1) ++ ", " ++ fmtBox p.2)
          ++ ["Found " ++ toString boxes.length ++ " blobs in frame."])
    ∧ (∀ boxes : List IRect,
        (log_detected boxes).length = boxes.length + 1)
    ∧ (∀ boxes : List IRect,
        (log_detected boxes).getLast? =
          some ("Found " ++ toString boxes.length ++ " blobs in frame."))
    ∧ log_detected [] = ["Found 0 blobs in frame."]
    ∧ log_detected [(1, 2, 3, 4)] =
        ["1, (1, 2, 3, 4)", "Found 1 blobs in frame."] := by
  have hmap : ∀ boxes : List IRect,
      log_detected boxes =
        boxes.enum.map (fun p => pyIntRepr ((p.1 : ℤ) + 1) ++ ", " ++ fmtBox p.2)
          ++ ["Found " ++ toString boxes.length ++ " blobs in frame."] := by
    intro boxes
    unfold log_detected
    rw [foldl_append_singleton]
    simp
  refine ⟨hmap, ?_, ?_, ?_, ?_⟩
  · intro boxes
    rw [hmap]
    simp [List.enum_length]
  · intro boxes
    rw [hmap]
    simp
  · decide
  · decide

/-- A drawing operation rendered onto a frame by the annotator.  The two
OpenCV drawing primitives the source uses are `cv2.rectangle` (called with a
`(x, y, w, h)` rect, a colour and a thickness) and `cv2.putText` (called with
a string, an origin, a font, a font scale, a colour and a thickness). -/
inductive DrawOp : Type
  | rectOp (x y w h : ℤ) (color : ℕ × ℕ × ℕ) (thickness : ℕ)
  | textOp (s : String) (x y : ℤ) (font : ℕ) (scale : ℚ) (color : ℕ × ℕ × ℕ)
      (thickness : ℕ)
  deriving DecidableEq

/-- A frame as seen by the annotator: its dimensions plus the ordered list of
drawing operations rendered onto it.  The drawing primitives only append
operations; the dimensions never change. -/
structure Canvas : Type where
  rows : ℕ
  cols : ℕ
  ops : List DrawOp
  deriving DecidableEq

/-- The constant `cv2.FONT_HERSHEY_SIMPLEX` (the integer constant 0). -/
def FONT_HERSHEY_SIMPLEX : ℕ := 0

/-- Modelled from the spec: `cv2.rectangle(frame, rect, color, thickness)`
renders a rectangle onto the frame and returns it; the rendering is recorded
as an appended drawing operation. -/
def cvRectangle (c : Canvas) (r : IRect) (color : ℕ × ℕ × ℕ) (t : ℕ) : Canvas :=
  { c with ops := c.ops ++ [DrawOp.rectOp r.1 r.2.1 r.2.2.1 r.2.2.2 color t] }

/-- Modelled from the spec: `cv2.putText(frame, s, org, font, scale, color,
thickness)` renders text onto the frame and returns it; the rendering is
recorded as an appended drawing operation. -/
def cvPutText (c : Canvas) (s : String) (org : ℤ × ℤ) (font : ℕ) (scale : ℚ)
    (color : ℕ × ℕ × ℕ) (t : ℕ) : Canvas :=
  { c with ops := c.ops ++ [DrawOp.textOp s org.1 org.2 font scale color t] }

/-- Source `draw_bbox(frame, player, rect)`: draws a green `(0, 255, 0)` rectangle of
thickness 2 at `rect`, then the text `"Player{player}"` at `(x, y)` in
`FONT_HERSHEY_SIMPLEX`, scale 0.5, green, default thickness 1. -/
def draw_bbox (frame : Canvas) (player : ℕ) (rect : IRect) : Canvas :=
  let frame := cvRectangle frame rect (0, 255, 0) 2
  let frame := cvPutText frame ("Player" ++ toString player) (rect.1, rect.2.1)
    FONT_HERSHEY_SIMPLEX (1 / 2) (0, 255, 0) 1
  frame

/-- Python's `int(x)` on a number: truncation toward zero. -/
def pyInt (q : ℚ) : ℤ := if 0 ≤ q then ⌊q⌋ else ⌈q⌉

/-- A box supplied by the caller of `draw_annotations`: its four entries may
be any Python numbers, modelled as rationals. -/
abbrev QBox : Type := ℚ × ℚ × ℚ × ℚ

/-- Source `tuple([int(x) for x in box])`: coerce each coordinate with `int`. -/
def truncBox (b : QBox) : IRect :=
  (pyInt b.1, pyInt b.2.1, pyInt b.2.2.1, pyInt b.2.2.2)

/-- Source `draw_annotations(frame, boxes)`: put the timestamp text at
`(10, frame.shape[0] - 10)` in white, then for `i, box in enumerate(boxes)`
call `draw_bbox(frame, i + 1, tuple([int(x) for x in box]))`.  The wall-clock
timestamp string (`datetime.datetime.now()` formatted) is a parameter of the
embedding. -/
def draw_annotations (now : String) (frame : Canvas) (boxes : List QBox) :
    Canvas :=
  let frame := cvPutText frame now (10, (frame.rows : ℤ) - 10)
    FONT_HERSHEY_SIMPLEX (1 / 2) (255, 255, 255) 1
  boxes.enum.foldl (fun fr p => draw_bbox fr (p.1 + 1) (truncBox p.2)) frame

/-- The two operations `draw_bbox` renders for one player number and rect. -/
def boxOps (player : ℕ) (r : IRect) : List DrawOp :=
  [DrawOp.rectOp r.1 r.2.1 r.2.2.1 r.2.2.2 (0, 255, 0) 2,
   DrawOp.textOp ("Player" ++ toString player) r.1 r.2.1 FONT_HERSHEY_SIMPLEX
     (1 / 2) (0, 255, 0) 1]

/-- The operations rendered by the annotation loop started at index `n`. -/
def annotsFrom (n : ℕ) : List QBox → List DrawOp
  | [] => []
  | b :: bs => boxOps (n + 1) (truncBox b) ++ annotsFrom (n + 1) bs

/-- The strings of the text operations in a list of drawing operations. -/
def textsOf (ops : List DrawOp) : List String :=
  ops.filterMap (fun op =>
    match op with
    | DrawOp.textOp s _ _ _ _ _ _ => some s
    | _ => none)

theorem draw_bbox_eq (fr : Canvas) (n : ℕ) (r : IRect) :
    draw_bbox fr n r =
      { rows := fr.rows, cols := fr.cols, ops := fr.ops ++ boxOps n r } := by
  simp [draw_bbox, cvRectangle, cvPutText, boxOps]

theorem drawLoop_eq :
    ∀ (bs : List QBox) (n : ℕ) (fr : Canvas),
      (List.enumFrom n bs).foldl
          (fun fr p => draw_bbox fr (p.1 + 1) (truncBox p.2)) fr =
        { rows := fr.rows, cols := fr.cols, ops := fr.ops ++ annotsFrom n bs } := by
  intro bs
  induction bs with
  | nil => intro n fr; simp [annotsFrom, List.enumFrom]
  | cons b bs ih =>
    intro n fr
    simp only [List.enumFrom, List.foldl_cons]
    rw [draw_bbox_eq, ih]
    simp [annotsFrom]

theorem draw_annotations_eq (ts : String) (fr : Canvas) (boxes : List QBox) :
    draw_annotations ts fr boxes =
      { rows := fr.rows, cols := fr.cols,
        ops := fr.ops ++
          (DrawOp.textOp ts 10 ((fr.rows : ℤ) - 10) FONT_HERSHEY_SIMPLEX (1 / 2)
            (255, 255, 255) 1 :: annotsFrom 0 boxes) } := by
  unfold draw_annotations
  have : boxes.enum = List.enumFrom 0 boxes := rfl
  rw [this, drawLoop_eq]
  simp [cvPutText]

theorem textsOf_append (l₁ l₂ : List DrawOp) :
    textsOf (l₁ ++ l₂) = textsOf l₁ ++ textsOf l₂ := by
  simp [textsOf]

theorem textsOf_boxOps (n : ℕ) (r : IRect) :
    textsOf (boxOps n r) = ["Player" ++ toString n] := rfl

theorem annotsFrom_texts :
    ∀ (bs : List QBox) (n : ℕ),
      textsOf (annotsFrom n bs) =
        (List.range bs.length).map (fun i => "Player" ++ toString (n + i + 1)) := by
  intro bs
  induction bs with
  | nil => intro n; rfl
  | cons b bs ih =>
    intro n
    rw [show annotsFrom n (b :: bs) =
      boxOps (n + 1) (truncBox b) ++ annotsFrom (n + 1) bs from rfl]
    rw [textsOf_append, textsOf_boxOps, ih (n + 1)]
    rw [List.length_cons, List.range_succ_eq_map]
    rw [List.map_cons, List.map_map]
    rw [List.singleton_append]
    congr 1
    symm
    apply List.map_congr_left
    intro i _
    simp only [Function.comp, Nat.succ_eq_add_one]
    have h : n + (i + 1) + 1 = n + 1 + i + 1 := by omega
    rw [h]

theorem bind_map_succ {β : Type} (l : List ℕ) (g : ℕ → List β) :
    (l.map Nat.succ).flatMap g = l.flatMap (fun i => g (i + 1)) := by
  induction l with
  | nil => rfl
  | cons x xs ih => simp only [List.map_cons, List.flatMap_cons, ih]

theorem annotsFrom_getD :
    ∀ (bs : List QBox) (n : ℕ),
      annotsFrom n bs =
        (List.range bs.length).flatMap
          (fun i => boxOps (n + i + 1) (truncBox (bs.getD i (0, 0, 0, 0)))) := by
  intro bs
  induction bs with
  | nil => intro n; simp [annotsFrom]
  | cons b bs ih =>
    intro n
    rw [show annotsFrom n (b :: bs) =
      boxOps (n + 1) (truncBox b) ++ annotsFrom (n + 1) bs from rfl]
    rw [List.length_cons, List.range_succ_eq_map, List.flatMap_cons, bind_map_succ]
    have hfun : (fun i => boxOps (n + (i + 1) + 1)
          (truncBox ((b :: bs).getD (i + 1) (0, 0, 0, 0)))) =
        (fun i => boxOps (n + 1 + i + 1) (truncBox (bs.getD i (0, 0, 0, 0)))) := by
      funext i
      have h : n + (i + 1) + 1 = n + 1 + i + 1 := by omega
      rw [List.getD_cons_succ, h]
    rw [hfun, ← ih (n + 1)]
    have h : n + 0 + 1 = n + 1 := by omega
    rw [List.getD_cons_zero, h]

/-- Claim C3: on N boxes, `draw_annotations` draws, for the i-th box (input
order, 1-based), a green `(0,255,0)` rectangle of 2 px stroke at the box's
(truncated) `(x, y, w, h)` and a green label `"Player{i}"` at the rectangle's
top-left corner `(x, y)`; the text operations it adds after the timestamp are
exactly `"Player1"` .. `"PlayerN"` in input order, independent of box content
(the number is purely positional, recomputed from `enumerate` every call). -/
theorem draw_annotations_player_labels :
    (∀ (ts : String) (fr : Canvas) (boxes : List QBox),
      (draw_annotations ts fr boxes).ops =
        fr.ops ++
          DrawOp.textOp ts 10 ((fr.rows : ℤ) - 10) FONT_HERSHEY_SIMPLEX (1 / 2)
              (255, 255, 255) 1 ::
            (List.range boxes.length).flatMap (fun i =>
              [DrawOp.rectOp (pyInt (boxes.getD i (0, 0, 0, 0)).1)
                 (pyInt (boxes.getD i (0, 0, 0, 0)).2.1)
                 (pyInt (boxes.getD i (0, 0, 0, 0)).2.2.1)
                 (pyInt (boxes.getD i (0, 0, 0, 0)).2.2.2) (0, 255, 0) 2,
               DrawOp.textOp ("Player" ++ toString (i + 1))
                 (pyInt (boxes.getD i (0, 0, 0, 0)).1)
                 (pyInt (boxes.getD i (0, 0, 0, 0)).2.1) FONT_HERSHEY_SIMPLEX
                 (1 / 2) (0, 255, 0) 1]))
    ∧ (∀ (ts : String) (fr : Canvas) (boxes : List QBox),
        textsOf ((draw_annotations ts fr boxes).ops.drop (fr.ops.length + 1)) =
          (List.range boxes.length).map (fun i => "Player" ++ toString (i + 1))) := by
  constructor
  · intro ts fr boxes
    rw [draw_annotations_eq, annotsFrom_getD]
    simp only [Nat.zero_add]
    rfl
  · intro ts fr boxes
    have hsplit : (draw_annotations ts fr boxes).ops =
        (fr.ops ++ [DrawOp.textOp ts 10 ((fr.rows : ℤ) - 10) FONT_HERSHEY_SIMPLEX
          (1 / 2) (255, 255, 255) 1]) ++ annotsFrom 0 boxes := by
      rw [draw_annotations_eq]
      simp
    rw [hsplit]
    rw [show fr.ops.length + 1 =
      (fr.ops ++ [DrawOp.textOp ts 10 ((fr.rows : ℤ) - 10) FONT_HERSHEY_SIMPLEX
        (1 / 2) (255, 255, 255) 1]).length by simp]
    rw [List.drop_left, annotsFrom_texts]
    simp only [Nat.zero_add]

/-- Claim C4: for every frame and box list (including `[]`),
`draw_annotations` draws the timestamp text at `(10, H - 10)` and returns a
frame of identical dimensions; the drawing is purely additive (the original
frame's operations are a prefix of the result and box coordinates are read,
never altered, by the embedding's pure drawing operations). -/
theorem draw_annotations_frame_shape :
    (∀ (ts : String) (fr : Canvas) (boxes : List QBox),
      (draw_annotations ts fr boxes).rows = fr.rows
      ∧ (draw_annotations ts fr boxes).cols = fr.cols
      ∧ ∃ rest : List DrawOp,
          (draw_annotations ts fr boxes).ops =
            fr.ops ++ DrawOp.textOp ts 10 ((fr.rows : ℤ) - 10)
              FONT_HERSHEY_SIMPLEX (1 / 2) (255, 255, 255) 1 :: rest)
    ∧ (∀ (ts : String) (fr : Canvas),
        (draw_annotations ts fr []).ops =
          fr.ops ++ [DrawOp.textOp ts 10 ((fr.rows : ℤ) - 10)
            FONT_HERSHEY_SIMPLEX (1 / 2) (255, 255, 255) 1]) := by
  constructor
  · intro ts fr boxes
    rw [draw_annotations_eq]
    exact ⟨rfl, rfl, annotsFrom 0 boxes, rfl⟩
  · intro ts fr
    rw [draw_annotations_eq]
    rfl

theorem pyInt_intCast (z : ℤ) : pyInt (z : ℚ) = z := by
  by_cases h : (0 : ℚ) ≤ (z : ℚ)
  · simp [pyInt, h]
  · simp [pyInt, h]

theorem truncBox_idem (b : QBox) :
    truncBox ((pyInt b.1 : ℚ), (pyInt b.2.1 : ℚ), (pyInt b.2.2.1 : ℚ),
      (pyInt b.2.2.2 : ℚ)) = truncBox b := by
  simp [truncBox, pyInt_intCast]

theorem annotsFrom_trunc_invariant :
    ∀ (bs : List QBox) (n : ℕ),
      annotsFrom n (bs.map (fun b => ((pyInt b.1 : ℚ), (pyInt b.2.1 : ℚ),
          (pyInt b.2.2.1 : ℚ), (pyInt b.2.2.2 : ℚ)))) =
        annotsFrom n bs := by
  intro bs
  induction bs with
  | nil => intro n; rfl
  | cons b bs ih =>
    intro n
    simp only [List.map_cons]
    rw [show annotsFrom n ((((pyInt b.1 : ℤ) : ℚ), ((pyInt b.2.1 : ℤ) : ℚ),
        ((pyInt b.2.2.1 : ℤ) : ℚ), ((pyInt b.2.2.2 : ℤ) : ℚ)) ::
        bs.map (fun b => ((pyInt b.1 : ℚ), (pyInt b.2.1 : ℚ),
          (pyInt b.2.2.1 : ℚ), (pyInt b.2.2.2 : ℚ)))) =
      boxOps (n + 1) (truncBox (((pyInt b.1 : ℤ) : ℚ), ((pyInt b.2.1 : ℤ) : ℚ),
        ((pyInt b.2.2.1 : ℤ) : ℚ), ((pyInt b.2.2.2 : ℤ) : ℚ))) ++
        annotsFrom (n + 1) (bs.map (fun b => ((pyInt b.1 : ℚ),
          (pyInt b.2.1 : ℚ), (pyInt b.2.2.1 : ℚ), (pyInt b.2.2.2 : ℚ))))
      from rfl]
    rw [truncBox_idem, ih (n + 1)]
    rfl

/-- Claim C10: `draw_annotations` accepts boxes with non-integer coordinates;
each of the four coordinates of every box is coerced with Python's `int`
(truncation toward zero, characterised below by `|int q| = floor |q|` with the
sign of `q`), so the drawing loop (`draw_bbox`) only ever receives the
truncated integer 4-tuple: the annotated frame is unchanged if every
coordinate is replaced by its truncation beforehand. -/
theorem draw_annotations_int_coercion :
    (∀ z : ℤ, pyInt (z : ℚ) = z)
    ∧ (∀ q : ℚ, (0 ≤ q → 0 ≤ pyInt q) ∧ (q ≤ 0 → pyInt q ≤ 0)
        ∧ |(pyInt q : ℚ)| ≤ |q| ∧ |q| < |(pyInt q : ℚ)| + 1)
    ∧ (∀ (ts : String) (fr : Canvas) (boxes : List QBox),
        draw_annotations ts fr boxes =
          draw_annotations ts fr
            (boxes.map (fun b => ((pyInt b.1 : ℚ), (pyInt b.2.1 : ℚ),
              (pyInt b.2.2.1 : ℚ), (pyInt b.2.2.2 : ℚ))))) := by
  refine ⟨pyInt_intCast, ?_, ?_⟩
  · intro q
    by_cases h : (0 : ℚ) ≤ q
    · have hpy : pyInt q = ⌊q⌋ := by simp [pyInt, h]
      have h0 : (0 : ℤ) ≤ ⌊q⌋ := Int.floor_nonneg.mpr h
      have hle : ((⌊q⌋ : ℤ) : ℚ) ≤ q := Int.floor_le q
      have hlt : q < ((⌊q⌋ : ℤ) : ℚ) + 1 := Int.lt_floor_add_one q
      refine ⟨fun _ => hpy ▸ h0, ?_, ?_, ?_⟩
      · intro hq0
        have hq : q = 0 := le_antisymm hq0 h
        rw [hpy, hq]
        simp
      · rw [hpy, abs_of_nonneg h, abs_of_nonneg (by exact_mod_cast h0)]
        exact hle
      · rw [hpy, abs_of_nonneg h, abs_of_nonneg (by exact_mod_cast h0)]
        exact hlt
    · have hq : q < 0 := lt_of_not_le h
      have hpy : pyInt q = ⌈q⌉ := by simp [pyInt, h]
      have h0 : ⌈q⌉ ≤ 0 := Int.ceil_le.mpr (by exact_mod_cast le_of_lt hq)
      have hle : q ≤ ((⌈q⌉ : ℤ) : ℚ) := Int.le_ceil q
      have hlt : ((⌈q⌉ : ℤ) : ℚ) < q + 1 := Int.ceil_lt_add_one q
      refine ⟨fun hq0 => absurd hq0 h, fun _ => hpy ▸ h0, ?_, ?_⟩
      · rw [hpy, abs_of_nonpos (le_of_lt hq), abs_of_nonpos (by exact_mod_cast h0)]
        linarith
      · rw [hpy, abs_of_nonpos (le_of_lt hq), abs_of_nonpos (by exact_mod_cast h0)]
        linarith
  · intro ts fr boxes
    rw [draw_annotations_eq, draw_annotations_eq, annotsFrom_trunc_invariant]

/-- Witness for the hypotheses of `draw_annotations_int_coercion`, at the
concrete inputs `7/2` and `-(7/2)`. -/
theorem draw_annotations_int_coercion_witness :
    (0 : ℤ) ≤ pyInt (7 / 2) ∧ pyInt (-(7 / 2) : ℚ) ≤ 0 :=
  ⟨(draw_annotations_int_coercion.2.1 (7 / 2)).1 (by norm_num),
   (draw_annotations_int_coercion.2.1 (-(7 / 2) : ℚ)).2.1 (by norm_num)⟩

/-- Round the fraction p / q to the nearest integer (halves up), for q > 0. -/
def roundNearest (p q : ℤ) : ℤ := Int.fdiv (2 * p + q) (2 * q)

/-- Modelled from the spec: `cv2.cvtColor(frame, cv2.COLOR_BGR2HSV)` converts
one BGR pixel to HSV ("Convert frame to HSV color space"); the conversion
itself is a library call outside this repository, so the standard 8-bit HSV
formula is used: V = max channel, S = 255 * (max - min) / max, and the hue in
degrees is halved to fit 8 bits; every division is carried out exactly and
rounded to the nearest integer. -/
def hsvOfPixel (p : Pixel) : Pixel :=
  let b : ℤ := p.1
  let g : ℤ := p.2.1
  let r : ℤ := p.2.2
  let mx : ℤ := max r (max g b)
  let mn : ℤ := min r (min g b)
  let v : ℤ := mx
  let s : ℤ := if mx = 0 then 0 else roundNearest (255 * (mx - mn)) mx
  let d : ℤ := mx - mn
  let hn : ℤ :=
    if d = 0 then 0
    else if mx = r then 60 * (g - b)
    else if mx = g then 120 * d + 60 * (b - r)
    else 240 * d + 60 * (r - g)
  let hn2 : ℤ := if hn < 0 then hn + 360 * d else hn
  let hh : ℤ := if d = 0 then 0 else roundNearest hn2 (2 * d)
  (hh.toNat, s.toNat, v.toNat)

/-- Source `cv2.cvtColor(frame, cv2.COLOR_BGR2HSV)`: pixelwise HSV conversion. -/
def cvtColorBGR2HSV (img : Image) : Image :=
  img.map (fun row => row.map hsvOfPixel)

/-- One pixel of `cv2.inRange`: componentwise-inclusive containment in
`[lo, hi]` (spec: "pixel set to on iff its HSV value lies componentwise
within [min_hsv, max_hsv] inclusive"). -/
def pixInRange (lo hi p : Pixel) : Bool :=
  decide (lo.1 ≤ p.1 ∧ p.1 ≤ hi.1 ∧ lo.2.1 ≤ p.2.1 ∧ p.2.1 ≤ hi.2.1
    ∧ lo.2.2 ≤ p.2.2 ∧ p.2.2 ≤ hi.2.2)

/-- Modelled from the spec: `cv2.inRange(img, lo, hi)` builds the binary mask
(255 on a hit, 0 otherwise). -/
def inRange (img : Image) (lo hi : Pixel) : GrayImage :=
  img.map (fun row => row.map (fun p => if pixInRange lo hi p then 255 else 0))

/-- Read a mask entry at integer coordinates, 0 outside the image. -/
def maskAt (m : GrayImage) (i j : ℤ) : ℕ :=
  if 0 ≤ i ∧ 0 ≤ j then (m.getD i.toNat []).getD j.toNat 0 else 0

/-- The 25 offsets of the 5x5 all-ones structuring element
`np.ones((5, 5), "uint8")`, anchored at its centre. -/
def dilOffsets : List (ℤ × ℤ) :=
  (List.range 5).flatMap (fun a => (List.range 5).map (fun b => ((a : ℤ) - 2, (b : ℤ) - 2)))

/-- Whether dilation turns the entry at (row i, column j) on: some mask entry
in the 5x5 neighbourhood is nonzero. -/
def dilCond (m : GrayImage) (i j : ℤ) : Bool :=
  dilOffsets.any (fun o => maskAt m (i + o.1) (j + o.2) != 0)

/-- One row of the dilated mask, scanning columns from j. -/
def dilRow (m : GrayImage) (i : ℤ) : ℤ → List ℕ → List ℕ
  | _, [] => []
  | j, _ :: rest => (if dilCond m i j then 255 else 0) :: dilRow m i (j + 1) rest

/-- The rows of the dilated mask, scanning rows from i. -/
def dilRows (m : GrayImage) : ℤ → GrayImage → GrayImage
  | _, [] => []
  | i, row :: rest => dilRow m i 0 row :: dilRows m (i + 1) rest

/-- Modelled from the spec: `cv2.dilate(mask, kernel)` with the 5x5 all-ones
kernel, one iteration ("Dilate the mask with a 5x5 all-ones structuring
element (one iteration)"). -/
def dilate5 (m : GrayImage) : GrayImage := dilRows m 0 m

/-- One row of `cv2.bitwise_and(frame, frame, mask=mask)`: keep the pixel
where the mask is nonzero, zero it elsewhere. -/
def andRow (m : GrayImage) (i : ℤ) : ℤ → List Pixel → List Pixel
  | _, [] => []
  | j, p :: rest =>
    (if maskAt m i j != 0 then p else ((0, 0, 0) : Pixel)) :: andRow m i (j + 1) rest

/-- The rows of the masked frame. -/
def andRows (m : GrayImage) : ℤ → Image → Image
  | _, [] => []
  | i, row :: rest => andRow m i 0 row :: andRows m (i + 1) rest

/-- Modelled from the spec: `cv2.bitwise_and(frame, frame, mask=green_mask)`
("Apply mask to the original frame (pixels outside mask zeroed)"). -/
def maskedAnd (img : Image) (m : GrayImage) : Image := andRows m 0 img

/-- Modelled from the spec: one pixel of `cv2.cvtColor(res,
cv2.COLOR_BGR2GRAY)` ("convert result to single-channel intensity"), using
the standard luma weights 0.299 R + 0.587 G + 0.114 B, rounded to nearest. -/
def grayOfPixel (p : Pixel) : ℕ :=
  (roundNearest (299 * (p.2.2 : ℤ) + 587 * (p.2.1 : ℤ) + 114 * (p.1 : ℤ)) 1000).toNat

/-- Source `cv2.cvtColor(res, cv2.COLOR_BGR2GRAY)`: pixelwise intensity. -/
def cvtColorBGR2GRAY (img : Image) : GrayImage :=
  img.map (fun row => row.map grayOfPixel)

/-- One row's foreground points (x = column, y = row), scanning from column j. -/
def fgRow (i : ℤ) : ℤ → List ℕ → List Pt
  | _, [] => []
  | j, v :: rest => (if v != 0 then [((j, i) : Pt)] else []) ++ fgRow i (j + 1) rest

/-- All foreground points of a single-channel image, in row-major scan order. -/
def fgRows : ℤ → GrayImage → List Pt
  | _, [] => []
  | i, row :: rest => fgRow i 0 row ++ fgRows (i + 1) rest

/-- The nonzero (foreground) points of a single-channel image. -/
def foreground (g : GrayImage) : List Pt := fgRows 0 g

/-- The 8-neighbourhood adjacency of two distinct points. -/
def adjB (p q : Pt) : Bool :=
  decide (p ≠ q ∧ (p.1 - q.1).natAbs ≤ 1 ∧ (p.2 - q.2).natAbs ≤ 1)

/-- Add to a partial component every foreground point adjacent to it. -/
def grow (fg : List Pt) (comp : List Pt) : List Pt :=
  comp ++ fg.filter (fun q => decide (q ∉ comp) && comp.any (fun p => adjB p q))

/-- Iterate `grow` a given number of times. -/
def reach (fg : List Pt) : ℕ → List Pt → List Pt
  | 0, comp => comp
  | n + 1, comp => reach fg n (grow fg comp)

/-- The connected component of a seed point among the foreground points
(enough `grow` iterations to saturate). -/
def component (fg : List Pt) (seed : Pt) : List Pt :=
  reach fg fg.length [seed]

/-- The connected components of the foreground, in scan order of their seeds. -/
def componentsOf (fg : List Pt) : List (List Pt) :=
  fg.foldl
    (fun acc p =>
      if acc.any (fun c => decide (p ∈ c)) then acc else acc ++ [component fg p])
    []

/-- The four 4-neighbours of a point. -/
def n4 (p : Pt) : List Pt :=
  [(p.1 + 1, p.2), (p.1 - 1, p.2), (p.1, p.2 + 1), (p.1, p.2 - 1)]

/-- The boundary of a component: its points with a 4-neighbour outside it. -/
def contourOf (comp : List Pt) : List Pt :=
  comp.filter (fun p => (n4 p).any (fun q => decide (q ∉ comp)))

/-- Modelled from the spec: `cv2.findContours(res, cv2.RETR_TREE,
cv2.CHAIN_APPROX_SIMPLE)` ("Extract contours (connected-component boundaries)
from the thresholded intensity image"): one contour per connected component
of the nonzero pixels, each contour the component's boundary points. -/
def findContours (g : GrayImage) : List (List Pt) :=
  (componentsOf (foreground g)).map contourOf

/-- The cyclic cross-product sum of the shoelace formula. -/
def crossSum : Pt → List Pt → Pt → ℤ
  | prev, [], first => prev.1 * first.2 - first.1 * prev.2
  | prev, q :: rest, first => (prev.1 * q.2 - q.1 * prev.2) + crossSum q rest first

/-- Modelled from the spec: `cv2.contourArea(contour)` ("compute enclosing
area"): the absolute shoelace (Green's theorem) area of the point sequence. -/
def contourArea (c : List Pt) : ℚ :=
  match c with
  | [] => 0
  | p :: ps => ((crossSum p ps p).natAbs : ℚ) / 2

/-- Modelled from the spec: `cv2.boundingRect(contour)` ("compute the minimal
axis-aligned bounding rectangle"): for integer points, x and y are the
minimal coordinates and the width and height span to the maxima inclusive. -/
def boundingRect (c : List Pt) : IRect :=
  match c with
  | [] => (0, 0, 0, 0)
  | p :: ps =>
    let x0 := ps.foldl (fun a q => min a q.1) p.1
    let y0 := ps.foldl (fun a q => min a q.2) p.2
    let x1 := ps.foldl (fun a q => max a q.1) p.1
    let y1 := ps.foldl (fun a q => max a q.2) p.2
    (x0, y0, x1 - x0 + 1, y1 - y0 + 1)

/-- Python's true division: raises `ZeroDivisionError` on a zero divisor,
modelled as `none`. -/
def pyDiv (a b : ℚ) : Option ℚ := if b = 0 then none else some (a / b)

/-- The source's aspect-ratio test `(w / h >= 0.8 or w / h <= 1.2)`, with
Python's short-circuit `or` and its possibly-raising divisions. -/
def aspect_ok (w h : ℤ) : Option Bool :=
  match pyDiv (w : ℚ) (h : ℚ) with
  | none => none
  | some r =>
    if 4 / 5 ≤ r then some true
    else
      match pyDiv (w : ℚ) (h : ℚ) with
      | none => none
      | some r2 => some (decide (r2 ≤ 6 / 5))

/-- The contour-filtering loop of `detect_colour`: for each contour, accept it
when `min_contour <= area <= max_contour`, then apply the aspect-ratio test to
its bounding rect and append the rect when the test passes.  `none` models a
`ZeroDivisionError` escaping the loop. -/
def detectLoop (mn mx : ℤ) : List (List Pt) → List IRect → Option (List IRect)
  | [], bboxes => some bboxes
  | contour :: rest, bboxes =>
    let box := contourArea contour
    if (mn : ℚ) ≤ box ∧ box ≤ (mx : ℚ) then
      let r := boundingRect contour
      match aspect_ok r.2.2.1 r.2.2.2 with
      | none => none
      | some ok => detectLoop mn mx rest (if ok then bboxes ++ [r] else bboxes)
    else detectLoop mn mx rest bboxes

/-- The data written to a diagnostic image file by `cv2.imwrite`. -/
inductive ImgData : Type
  | colourImg (img : Image)
  | grayImg (m : GrayImage)
  deriving DecidableEq

/-- A diagnostic image write: target filename and data. -/
abbrev FileWrite : Type := String × ImgData

/-- The result of one `detect_colour` call: the returned boxes, the log lines
emitted through `log_detected`, and the `cv2.imwrite` calls in order. -/
structure ColourResult : Type where
  boxes : List IRect
  logs : List String
  files : List FileWrite
  deriving DecidableEq

/-- Source `detect_colour(frame, min_hsv, max_hsv, min_contour, max_contour, dump)`:
convert to HSV, threshold to a mask, optionally dump, dilate, optionally dump,
mask the frame, optionally dump, convert to grayscale, find contours, filter
them by area (and the vacuous aspect-ratio test), log the accepted boxes, and
return them.  `none` models an escaping `ZeroDivisionError`. -/
def detect_colour (frame : Image) (min_hsv max_hsv : Pixel)
    (min_contour max_contour : ℤ) (dump : Bool) : Option ColourResult :=
  let hsv_frame := cvtColorBGR2HSV frame
  let green_mask := inRange hsv_frame min_hsv max_hsv
  let files1 : List FileWrite :=
    if dump then [("hsv_frame.jpg", ImgData.colourImg hsv_frame),
                  ("green_mask.jpg", ImgData.grayImg green_mask)] else []
  let green_mask2 := dilate5 green_mask
  let files2 := files1 ++
    (if dump then [("green_mask_dilated.jpg", ImgData.grayImg green_mask2)] else [])
  let res := maskedAnd frame green_mask2
  let files3 := files2 ++
    (if dump then [("img_masked.jpg", ImgData.colourImg res)] else [])
  let res2 := cvtColorBGR2GRAY res
  let contours := findContours res2
  match detectLoop min_contour max_contour contours [] with
  | none => none
  | some bboxes =>
    some { boxes := bboxes, logs := log_detected bboxes, files := files3 }

/-- The grayscale image whose contours `detect_colour` filters. -/
def colourPipelineGray (frame : Image) (lo hi : Pixel) : GrayImage :=
  cvtColorBGR2GRAY (maskedAnd frame (dilate5 (inRange (cvtColorBGR2HSV frame) lo hi)))

/-- The area acceptance test of the filtering loop, as a Boolean predicate. -/
def areaB (mn mx : ℤ) (c : List Pt) : Bool :=
  decide ((mn : ℚ) ≤ contourArea c ∧ contourArea c ≤ (mx : ℚ))

/-- Apply a list of file writes to a file store, in order; a later write to
the same name overwrites an earlier one or a pre-existing file. -/
def applyWrites (ws : List FileWrite) (store : String → Option ImgData) :
    String → Option ImgData :=
  ws.foldl (fun st w => fun nm => if nm = w.1 then some w.2 else st nm) store

theorem foldl_min_fst_le :
    ∀ (l : List Pt) (a : ℤ), l.foldl (fun b q => min b q.1) a ≤ a := by
  intro l
  induction l with
  | nil => intro a; exact le_refl a
  | cons x xs ih =>
    intro a
    simp only [List.foldl_cons]
    exact le_trans (ih (min a x.1)) (min_le_left a x.1)

theorem foldl_min_snd_le :
    ∀ (l : List Pt) (a : ℤ), l.foldl (fun b q => min b q.2) a ≤ a := by
  intro l
  induction l with
  | nil => intro a; exact le_refl a
  | cons x xs ih =>
    intro a
    simp only [List.foldl_cons]
    exact le_trans (ih (min a x.2)) (min_le_left a x.2)

theorem le_foldl_max_fst :
    ∀ (l : List Pt) (a : ℤ), a ≤ l.foldl (fun b q => max b q.1) a := by
  intro l
  induction l with
  | nil => intro a; exact le_refl a
  | cons x xs ih =>
    intro a
    simp only [List.foldl_cons]
    exact le_trans (le_max_left a x.1) (ih (max a x.1))

theorem le_foldl_max_snd :
    ∀ (l : List Pt) (a : ℤ), a ≤ l.foldl (fun b q => max b q.2) a := by
  intro l
  induction l with
  | nil => intro a; exact le_refl a
  | cons x xs ih =>
    intro a
    simp only [List.foldl_cons]
    exact le_trans (le_max_left a x.2) (ih (max a x.2))

theorem boundingRect_cons (p : Pt) (ps : List Pt) :
    boundingRect (p :: ps) =
      (ps.foldl (fun a q => min a q.1) p.1,
       ps.foldl (fun a q => min a q.2) p.2,
       ps.foldl (fun a q => max a q.1) p.1 - ps.foldl (fun a q => min a q.1) p.1 + 1,
       ps.foldl (fun a q => max a q.2) p.2 - ps.foldl (fun a q => min a q.2) p.2 + 1) :=
  rfl

theorem boundingRect_pos (c : List Pt) (hc : c ≠ []) :
    1 ≤ (boundingRect c).2.2.1 ∧ 1 ≤ (boundingRect c).2.2.2 := by
  cases c with
  | nil => exact absurd rfl hc
  | cons p ps =>
    rw [boundingRect_cons]
    constructor
    · have h1 := foldl_min_fst_le ps p.1
      have h2 := le_foldl_max_fst ps p.1
      simp only []
      omega
    · have h1 := foldl_min_snd_le ps p.2
      have h2 := le_foldl_max_snd ps p.2
      simp only []
      omega

theorem aspect_ok_pos (w h : ℤ) (hh : h ≠ 0) : aspect_ok w h = some true := by
  have hq : ((h : ℚ)) ≠ 0 := Int.cast_ne_zero.mpr hh
  unfold aspect_ok pyDiv
  rw [if_neg hq]
  by_cases hr : (4 : ℚ) / 5 ≤ (w : ℚ) / (h : ℚ)
  · simp [hr]
  · have hlt : (w : ℚ) / (h : ℚ) ≤ 6 / 5 := by
      have h45 := lt_of_not_le hr
      linarith
    simp [hr, hlt]

theorem detectLoop_spec (mn mx : ℤ) :
    ∀ (cs : List (List Pt)) (bboxes : List IRect),
      (∀ c ∈ cs, c ≠ []) →
      detectLoop mn mx cs bboxes =
        some (bboxes ++ (cs.filter (areaB mn mx)).map boundingRect) := by
  intro cs
  induction cs with
  | nil => intro bboxes _; simp [detectLoop]
  | cons c rest ih =>
    intro bboxes hne
    have hc : c ≠ [] := hne c (by simp)
    have hrest : ∀ c ∈ rest, c ≠ [] := fun d hd => hne d (by simp [hd])
    have hh : (boundingRect c).2.2.2 ≠ 0 := by
      have := (boundingRect_pos c hc).2
      omega
    by_cases ha : (mn : ℚ) ≤ contourArea c ∧ contourArea c ≤ (mx : ℚ)
    · have hfil : areaB mn mx c = true := decide_eq_true ha
      simp only [detectLoop, ha, if_true, aspect_ok_pos _ _ hh]
      rw [ih _ hrest]
      rw [List.filter_cons_of_pos hfil]
      simp
    · have hfil : areaB mn mx c = false := by
        simp [areaB, ha]
      simp only [detectLoop, ha, if_false]
      rw [ih _ hrest]
      rw [List.filter_cons_of_neg (by simp [hfil])]

theorem subset_grow (fg comp : List Pt) : comp ⊆ grow fg comp :=
  fun _ hp => List.mem_append_left _ hp

theorem subset_reach (fg : List Pt) :
    ∀ (n : ℕ) (comp : List Pt), comp ⊆ reach fg n comp := by
  intro n
  induction n with
  | zero => intro comp p hp; exact hp
  | succ n ih => intro comp p hp; exact ih (grow fg comp) (subset_grow fg comp hp)

theorem seed_mem_component (fg : List Pt) (p : Pt) : p ∈ component fg p :=
  subset_reach fg fg.length [p] (by simp)

theorem componentsOf_are_components (fg : List Pt) :
    ∀ c ∈ componentsOf fg, ∃ p, c = component fg p := by
  have general : ∀ (l : List Pt) (acc : List (List Pt)),
      (∀ c ∈ acc, ∃ p, c = component fg p) →
      ∀ c ∈ l.foldl
          (fun acc p =>
            if acc.any (fun c => decide (p ∈ c)) then acc
            else acc ++ [component fg p]) acc,
        ∃ p, c = component fg p := by
    intro l
    induction l with
    | nil => intro acc hacc; exact hacc
    | cons q l ih =>
      intro acc hacc
      simp only [List.foldl_cons]
      apply ih
      by_cases hq : acc.any (fun c => decide (q ∈ c)) = true
      · rw [if_pos hq]
        exact hacc
      · rw [if_neg hq]
        intro c hcm
        rcases List.mem_append.mp hcm with hin | hin
        · exact hacc c hin
        · refine ⟨q, ?_⟩
          simpa using hin
  intro c hc
  exact general fg [] (by simp) c hc

theorem exists_min_snd :
    ∀ (l : List Pt), l ≠ [] → ∃ p ∈ l, ∀ q ∈ l, p.2 ≤ q.2 := by
  intro l
  induction l with
  | nil => intro h; exact absurd rfl h
  | cons x xs ih =>
    intro _
    by_cases hxs : xs = []
    · subst hxs
      refine ⟨x, by simp, ?_⟩
      intro q hq
      rcases List.mem_singleton.mp hq with rfl
      exact le_refl _
    · obtain ⟨p, hpmem, hpmin⟩ := ih hxs
      by_cases hle : x.2 ≤ p.2
      · refine ⟨x, by simp, ?_⟩
        intro q hq
        rcases List.mem_cons.mp hq with rfl | h
        · exact le_refl _
        · exact le_trans hle (hpmin q h)
      · refine ⟨p, by simp [hpmem], ?_⟩
        intro q hq
        rcases List.mem_cons.mp hq with rfl | h
        · exact le_of_lt (lt_of_not_le hle)
        · exact hpmin q h

theorem contourOf_ne_nil (comp : List Pt) (hc : comp ≠ []) :
    contourOf comp ≠ [] := by
  obtain ⟨p, hpmem, hpmin⟩ := exists_min_snd comp hc
  have hout : ((p.1, p.2 - 1) : Pt) ∉ comp := by
    intro hmem
    have h := hpmin (p.1, p.2 - 1) hmem
    simp only [] at h
    omega
  apply List.ne_nil_of_mem (a := p)
  unfold contourOf
  apply List.mem_filter.mpr
  refine ⟨hpmem, ?_⟩
  apply List.any_eq_true.mpr
  refine ⟨(p.1, p.2 - 1), ?_, decide_eq_true hout⟩
  simp [n4]

theorem findContours_ne_nil (g : GrayImage) : ∀ c ∈ findContours g, c ≠ [] := by
  intro c hc
  unfold findContours at hc
  rcases List.mem_map.mp hc with ⟨comp, hcomp, rfl⟩
  rcases componentsOf_are_components (foreground g) comp hcomp with ⟨p, rfl⟩
  exact contourOf_ne_nil _ (List.ne_nil_of_mem (seed_mem_component _ p))

/-- The boxes `detect_colour` returns: the bounding rects of the contours
accepted by the area filter, in contour order. -/
def colourBoxes (frame : Image) (lo hi : Pixel) (mn mx : ℤ) : List IRect :=
  ((findContours (colourPipelineGray frame lo hi)).filter (areaB mn mx)).map
    boundingRect

/-- The diagnostic files `detect_colour` writes, in write order. -/
def colourFiles (frame : Image) (lo hi : Pixel) (dump : Bool) : List FileWrite :=
  if dump then
    [("hsv_frame.jpg", ImgData.colourImg (cvtColorBGR2HSV frame)),
     ("green_mask.jpg", ImgData.grayImg (inRange (cvtColorBGR2HSV frame) lo hi)),
     ("green_mask_dilated.jpg",
       ImgData.grayImg (dilate5 (inRange (cvtColorBGR2HSV frame) lo hi))),
     ("img_masked.jpg",
       ImgData.colourImg (maskedAnd frame
         (dilate5 (inRange (cvtColorBGR2HSV frame) lo hi))))]
  else []

theorem detect_colour_eq (frame : Image) (lo hi : Pixel) (mn mx : ℤ)
    (dump : Bool) :
    detect_colour frame lo hi mn mx dump =
      some { boxes := colourBoxes frame lo hi mn mx,
             logs := log_detected (colourBoxes frame lo hi mn mx),
             files := colourFiles frame lo hi dump } := by
  simp only [detect_colour]
  rw [detectLoop_spec mn mx _ [] (findContours_ne_nil _)]
  cases dump <;> simp [colourBoxes, colourFiles, colourPipelineGray]

theorem getD_all_eq {α : Type} (d : α) :
    ∀ (l : List α) (n : ℕ), (∀ v ∈ l, v = d) → l.getD n d = d := by
  intro l
  induction l with
  | nil => intro n _; cases n <;> rfl
  | cons x xs ih =>
    intro n h
    cases n with
    | zero => exact h x (by simp)
    | succ n => exact ih n (fun v hv => h v (by simp [hv]))

theorem maskAt_zero (m : GrayImage) (hm : ∀ row ∈ m, ∀ v ∈ row, v = 0) :
    ∀ i j : ℤ, maskAt m i j = 0 := by
  intro i j
  unfold maskAt
  by_cases hij : 0 ≤ i ∧ 0 ≤ j
  · rw [if_pos hij]
    cases hrow : m.get? i.toNat with
    | none =>
      have : m.getD i.toNat [] = [] := by
        simp [List.getD_eq_getElem?_getD, ← List.get?_eq_getElem?, hrow]
      rw [this]
      rfl
    | some row =>
      have hmem : row ∈ m := List.get?_mem hrow
      have : m.getD i.toNat [] = row := by
        simp [List.getD_eq_getElem?_getD, ← List.get?_eq_getElem?, hrow]
      rw [this]
      exact getD_all_eq 0 row j.toNat (hm row hmem)
  · exact if_neg hij

theorem inRange_zero (img : Image) (lo hi : Pixel)
    (h : ∀ row ∈ img, ∀ p ∈ row, pixInRange lo hi p = false) :
    ∀ row ∈ inRange img lo hi, ∀ v ∈ row, v = 0 := by
  intro row hrow v hv
  unfold inRange at hrow
  rcases List.mem_map.mp hrow with ⟨r0, hr0, rfl⟩
  rcases List.mem_map.mp hv with ⟨p, hp, rfl⟩
  rw [h r0 hr0 p hp]
  rfl

theorem dilCond_zero (m : GrayImage) (hm : ∀ i j : ℤ, maskAt m i j = 0)
    (i j : ℤ) : dilCond m i j = false := by
  unfold dilCond
  rw [List.any_eq_false]
  intro o _
  rw [hm (i + o.1) (j + o.2)]
  decide

theorem dilRow_zero (m : GrayImage) (hm : ∀ i j : ℤ, maskAt m i j = 0) (i : ℤ) :
    ∀ (l : List ℕ) (j : ℤ), ∀ v ∈ dilRow m i j l, v = 0 := by
  intro l
  induction l with
  | nil => intro j v hv; cases hv
  | cons x xs ih =>
    intro j v hv
    rw [show dilRow m i j (x :: xs) =
      (if dilCond m i j then 255 else 0) :: dilRow m i (j + 1) xs from rfl] at hv
    rcases List.mem_cons.mp hv with rfl | h
    · rw [dilCond_zero m hm i j]
      rfl
    · exact ih (j + 1) v h

theorem dilRows_zero (m : GrayImage) (hm : ∀ i j : ℤ, maskAt m i j = 0) :
    ∀ (g : GrayImage) (i : ℤ), ∀ row ∈ dilRows m i g, ∀ v ∈ row, v = 0 := by
  intro g
  induction g with
  | nil => intro i row hrow; cases hrow
  | cons r rest ih =>
    intro i row hrow
    rw [show dilRows m i (r :: rest) =
      dilRow m i 0 r :: dilRows m (i + 1) rest from rfl] at hrow
    rcases List.mem_cons.mp hrow with rfl | h
    · exact dilRow_zero m hm i r 0
    · exact ih (i + 1) row h

theorem andRow_zero (m : GrayImage) (hm : ∀ i j : ℤ, maskAt m i j = 0) (i : ℤ) :
    ∀ (l : List Pixel) (j : ℤ), ∀ p ∈ andRow m i j l, p = ((0, 0, 0) : Pixel) := by
  intro l
  induction l with
  | nil => intro j p hp; cases hp
  | cons x xs ih =>
    intro j p hp
    rw [show andRow m i j (x :: xs) =
      (if maskAt m i j != 0 then x else ((0, 0, 0) : Pixel)) ::
        andRow m i (j + 1) xs from rfl] at hp
    rcases List.mem_cons.mp hp with rfl | h
    · rw [hm i j]
      rfl
    · exact ih (j + 1) p h

theorem andRows_zero (m : GrayImage) (hm : ∀ i j : ℤ, maskAt m i j = 0) :
    ∀ (img : Image) (i : ℤ),
      ∀ row ∈ andRows m i img, ∀ p ∈ row, p = ((0, 0, 0) : Pixel) := by
  intro img
  induction img with
  | nil => intro i row hrow; cases hrow
  | cons r rest ih =>
    intro i row hrow
    rw [show andRows m i (r :: rest) =
      andRow m i 0 r :: andRows m (i + 1) rest from rfl] at hrow
    rcases List.mem_cons.mp hrow with rfl | h
    · exact andRow_zero m hm i r 0
    · exact ih (i + 1) row h

theorem grayOfPixel_zero : grayOfPixel ((0, 0, 0) : Pixel) = 0 := by decide

theorem gray_zero (img : Image)
    (h : ∀ row ∈ img, ∀ p ∈ row, p = ((0, 0, 0) : Pixel)) :
    ∀ row ∈ cvtColorBGR2GRAY img, ∀ v ∈ row, v = 0 := by
  intro row hrow v hv
  unfold cvtColorBGR2GRAY at hrow
  rcases List.mem_map.mp hrow with ⟨r0, hr0, rfl⟩
  rcases List.mem_map.mp hv with ⟨p, hp, rfl⟩
  rw [h r0 hr0 p hp]
  exact grayOfPixel_zero

theorem fgRow_zero (i : ℤ) :
    ∀ (l : List ℕ) (j : ℤ), (∀ v ∈ l, v = 0) → fgRow i j l = [] := by
  intro l
  induction l with
  | nil => intro j _; rfl
  | cons x xs ih =>
    intro j h
    rw [show fgRow i j (x :: xs) =
      (if x != 0 then [((j, i) : Pt)] else []) ++ fgRow i (j + 1) xs from rfl]
    rw [h x (by simp)]
    rw [ih (j + 1) (fun v hv => h v (by simp [hv]))]
    rfl

theorem fgRows_zero :
    ∀ (g : GrayImage) (i : ℤ), (∀ row ∈ g, ∀ v ∈ row, v = 0) → fgRows i g = [] := by
  intro g
  induction g with
  | nil => intro i _; rfl
  | cons r rest ih =>
    intro i h
    rw [show fgRows i (r :: rest) = fgRow i 0 r ++ fgRows (i + 1) rest from rfl]
    rw [fgRow_zero i r 0 (h r (by simp))]
    rw [ih (i + 1) (fun row hrow => h row (by simp [hrow]))]
    rfl

theorem colourPipelineGray_zero (frame : Image) (lo hi : Pixel)
    (h : ∀ row ∈ cvtColorBGR2HSV frame, ∀ p ∈ row, pixInRange lo hi p = false) :
    findContours (colourPipelineGray frame lo hi) = [] := by
  have hmask := inRange_zero (cvtColorBGR2HSV frame) lo hi h
  have hat := maskAt_zero _ hmask
  have hdil : ∀ i j : ℤ,
      maskAt (dilate5 (inRange (cvtColorBGR2HSV frame) lo hi)) i j = 0 :=
    maskAt_zero _ (dilRows_zero _ hat _ 0)
  have hand := andRows_zero _ hdil frame 0
  have hgray := gray_zero _ hand
  have hfg : foreground (colourPipelineGray frame lo hi) = [] := by
    unfold foreground colourPipelineGray maskedAnd dilate5
    exact fgRows_zero _ 0 hgray
  unfold findContours
  rw [hfg]
  rfl

/-- Claim C1: the filtering loop of `detect_colour` appends a contour's
bounding box to the result if and only if the contour's area satisfies
`min_contour <= area <= max_contour` (the result is exactly the bounding
rects of the area-accepted contours, in order), because the subsequent
aspect-ratio test `(w / h >= 0.8 or w / h <= 1.2)` holds for every ratio
whose division succeeds and therefore excludes no box. -/
theorem detect_colour_area_filter :
    (∀ (contours : List (List Pt)) (mn mx : ℤ),
      (∀ c ∈ contours, c ≠ []) →
      detectLoop mn mx contours [] =
        some ((contours.filter (areaB mn mx)).map boundingRect))
    ∧ (∀ w h : ℤ, h ≠ 0 → aspect_ok w h = some true)
    ∧ (∀ (frame : Image) (lo hi : Pixel) (mn mx : ℤ) (dump : Bool),
        ∃ r, detect_colour frame lo hi mn mx dump = some r ∧
          r.boxes = ((findContours (colourPipelineGray frame lo hi)).filter
            (areaB mn mx)).map boundingRect) := by
  refine ⟨?_, aspect_ok_pos, ?_⟩
  · intro contours mn mx hne
    rw [detectLoop_spec mn mx contours [] hne]
    simp
  · intro frame lo hi mn mx dump
    exact ⟨_, detect_colour_eq frame lo hi mn mx dump, rfl⟩

/-- Witness for `detect_colour_area_filter` at a concrete one-point contour
(area 0, bounds 0..0) and at the concrete ratio 1 / 1. -/
theorem detect_colour_area_filter_witness :
    detectLoop 0 0 [[((0 : ℤ), (0 : ℤ))]] [] =
      some (([[((0 : ℤ), (0 : ℤ))]].filter (areaB 0 0)).map boundingRect)
    ∧ aspect_ok 1 1 = some true :=
  ⟨detect_colour_area_filter.1 [[(0, 0)]] 0 0 (by decide),
   detect_colour_area_filter.2.1 1 1 (by decide)⟩

/-- Claim C5: `detect_colour` is deterministic in its return value: two
invocations on an identical frame with identical parameters yield identical
results (the embedding is a pure function of its arguments). -/
theorem detect_colour_deterministic :
    ∀ (f1 f2 : Image) (lo1 lo2 hi1 hi2 : Pixel) (mn1 mn2 mx1 mx2 : ℤ)
      (d1 d2 : Bool),
      f1 = f2 → lo1 = lo2 → hi1 = hi2 → mn1 = mn2 → mx1 = mx2 → d1 = d2 →
      detect_colour f1 lo1 hi1 mn1 mx1 d1 = detect_colour f2 lo2 hi2 mn2 mx2 d2 := by
  intro f1 f2 lo1 lo2 hi1 hi2 mn1 mn2 mx1 mx2 d1 d2 hf hlo hhi hmn hmx hd
  rw [hf, hlo, hhi, hmn, hmx, hd]

/-- Witness for `detect_colour_deterministic` at a concrete frame and the
source's default parameters. -/
theorem detect_colour_deterministic_witness :
    detect_colour [[(0, 0, 0)]] MIN_DETECT_HSV MAX_DETECT_HSV
        MIN_DETECT_CONTOUR MAX_DETECT_CONTOUR false =
      detect_colour [[(0, 0, 0)]] MIN_DETECT_HSV MAX_DETECT_HSV
        MIN_DETECT_CONTOUR MAX_DETECT_CONTOUR false :=
  detect_colour_deterministic _ _ _ _ _ _ _ _ _ _ _ _ rfl rfl rfl rfl rfl rfl

/-- Claim C6: for every frame in which every pixel's HSV value lies outside
the componentwise-inclusive range `[min_hsv, max_hsv]`, `detect_colour`
returns an empty sequence of bounding boxes. -/
theorem detect_colour_empty_outside_range :
    ∀ (frame : Image) (lo hi : Pixel) (mn mx : ℤ) (dump : Bool),
      (∀ row ∈ cvtColorBGR2HSV frame, ∀ p ∈ row, pixInRange lo hi p = false) →
      ∃ r, detect_colour frame lo hi mn mx dump = some r ∧ r.boxes = [] := by
  intro frame lo hi mn mx dump h
  refine ⟨_, detect_colour_eq frame lo hi mn mx dump, ?_⟩
  show colourBoxes frame lo hi mn mx = []
  unfold colourBoxes
  rw [colourPipelineGray_zero frame lo hi h]
  rfl

/-- Witness for `detect_colour_empty_outside_range` at a concrete all-black
frame, whose HSV value (0, 0, 0) is outside the default green range. -/
theorem detect_colour_empty_outside_range_witness :
    ∃ r, detect_colour [[(0, 0, 0)]] MIN_DETECT_HSV MAX_DETECT_HSV
        MIN_DETECT_CONTOUR MAX_DETECT_CONTOUR false = some r ∧ r.boxes = [] :=
  detect_colour_empty_outside_range _ _ _ _ _ _ (by decide)

/-- Claim C8: `detect_colour` writes files iff `dump` is true, and then
writes exactly four image files with the fixed names `hsv_frame.jpg` (the HSV
frame), `green_mask.jpg` (the raw mask, pre-dilation),
`green_mask_dilated.jpg` (the dilated mask) and `img_masked.jpg` (the masked
colour frame), in that order, overwriting any existing file of the same name
in any prior file store; the returned box sequence is the same whether `dump`
is true or false. -/
theorem detect_colour_dump_files :
    ∀ (frame : Image) (lo hi : Pixel) (mn mx : ℤ),
      ∃ rT rF,
        detect_colour frame lo hi mn mx true = some rT
        ∧ detect_colour frame lo hi mn mx false = some rF
        ∧ rF.files = []
        ∧ rT.files =
            [("hsv_frame.jpg", ImgData.colourImg (cvtColorBGR2HSV frame)),
             ("green_mask.jpg",
               ImgData.grayImg (inRange (cvtColorBGR2HSV frame) lo hi)),
             ("green_mask_dilated.jpg",
               ImgData.grayImg (dilate5 (inRange (cvtColorBGR2HSV frame) lo hi))),
             ("img_masked.jpg",
               ImgData.colourImg (maskedAnd frame
                 (dilate5 (inRange (cvtColorBGR2HSV frame) lo hi))))]
        ∧ rT.boxes = rF.boxes
        ∧ (∀ store : String → Option ImgData,
            applyWrites rT.files store "hsv_frame.jpg" =
              some (ImgData.colourImg (cvtColorBGR2HSV frame))
            ∧ applyWrites rT.files store "green_mask.jpg" =
              some (ImgData.grayImg (inRange (cvtColorBGR2HSV frame) lo hi))
            ∧ applyWrites rT.files store "green_mask_dilated.jpg" =
              some (ImgData.grayImg (dilate5 (inRange (cvtColorBGR2HSV frame) lo hi)))
            ∧ applyWrites rT.files store "img_masked.jpg" =
              some (ImgData.colourImg (maskedAnd frame
                (dilate5 (inRange (cvtColorBGR2HSV frame) lo hi))))) := by
  intro frame lo hi mn mx
  refine ⟨_, _, detect_colour_eq frame lo hi mn mx true,
    detect_colour_eq frame lo hi mn mx false, rfl, rfl, rfl, ?_⟩
  intro store
  exact ⟨rfl, rfl, rfl, rfl⟩

/-- Claim C9: the division `w / h` in the aspect-ratio test of
`detect_colour` never divides by zero: every contour produced by the contour
extraction is nonempty, its bounding rect has width and height at least 1, so
the aspect test returns a value, and `detect_colour` never propagates a
`ZeroDivisionError` (its result is always `some`). -/
theorem detect_colour_no_div_error :
    (∀ g : GrayImage, ∀ c ∈ findContours g,
      c ≠ [] ∧ 1 ≤ (boundingRect c).2.2.1 ∧ 1 ≤ (boundingRect c).2.2.2
        ∧ aspect_ok (boundingRect c).2.2.1 (boundingRect c).2.2.2 = some true)
    ∧ (∀ (frame : Image) (lo hi : Pixel) (mn mx : ℤ) (dump : Bool),
        (detect_colour frame lo hi mn mx dump).isSome = true) := by
  constructor
  · intro g c hc
    have hne := findContours_ne_nil g c hc
    have hpos := boundingRect_pos c hne
    refine ⟨hne, hpos.1, hpos.2, aspect_ok_pos _ _ ?_⟩
    omega
  · intro frame lo hi mn mx dump
    rw [detect_colour_eq]
    rfl

/-- Witness for `detect_colour_no_div_error` at the concrete single-pixel
image `[[255]]`, whose only contour is `[(0, 0)]`. -/
theorem detect_colour_no_div_error_witness :
    [((0 : ℤ), (0 : ℤ))] ≠ []
    ∧ 1 ≤ (boundingRect [((0 : ℤ), (0 : ℤ))]).2.2.1
    ∧ 1 ≤ (boundingRect [((0 : ℤ), (0 : ℤ))]).2.2.2
    ∧ aspect_ok (boundingRect [((0 : ℤ), (0 : ℤ))]).2.2.1
        (boundingRect [((0 : ℤ), (0 : ℤ))]).2.2.2 = some true :=
  detect_colour_no_div_error.1 [[255]] [(0, 0)] (by decide)

/-- Source `cv2.bitwise_not` on one 8-bit pixel: each channel value v maps to
255 - v. -/
def pxNot (p : Pixel) : Pixel := (255 - p.1, 255 - p.2.1, 255 - p.2.2)

/-- Source `cv2.bitwise_not(frame)`: pixelwise inversion. -/
def bitwise_not (img : Image) : Image := img.map (fun row => row.map pxNot)

/-- A blob keypoint: centre of mass and size (diameter) of a detected blob. -/
structure KeyPoint : Type where
  ptX : ℚ
  ptY : ℚ
  size : ℚ
  deriving DecidableEq

/-- The `cv2.SimpleBlobDetector_Params` fields the source assigns. -/
structure BlobParams : Type where
  filterByCircularity : Bool
  minCircularity : ℚ
  filterByArea : Bool
  minArea : ℚ
  maxArea : ℚ
  filterByColor : Bool
  blobColor : ℕ
  deriving DecidableEq

/-- The parameter record built by `detect_blobs`: the source assigns
`filterByCircularity = 1`, `minCircularity = 0.9`, `filterByArea = 1`,
`minArea = min_area`, `maxArea = max_area`, `filterByColor = 1`,
`blobColor = 0` (the truthy integer 1 is stored as a set flag). -/
def blobParamsFor (min_area max_area : ℚ) : BlobParams :=
  { filterByCircularity := true, minCircularity := 9 / 10,
    filterByArea := true, minArea := min_area, maxArea := max_area,
    filterByColor := true, blobColor := 0 }

/-- Modelled from the spec: `cv2.boundingRect` of a blob keypoint ("Convert
each keypoint to its minimal enclosing axis-aligned bounding rectangle"): the
minimal axis-aligned rectangle enclosing the disc with the keypoint's centre
and diameter. -/
def blobBoundingRect (k : KeyPoint) : ℚ × ℚ × ℚ × ℚ :=
  (k.ptX - k.size / 2, k.ptY - k.size / 2, k.size, k.size)

/-- Source `detect_blobs(frame, min_area, max_area)`: invert the frame, configure a
`SimpleBlobDetector`, run it on the inverted frame, and return one bounding
rectangle per detected keypoint.  The detector itself (an opaque library
object) is a parameter of the embedding; the second component records the log
lines emitted on this path (there are none). -/
def detect_blobs (detector : BlobParams → Image → List KeyPoint)
    (frame : Image) (min_area max_area : ℚ) :
    List (ℚ × ℚ × ℚ × ℚ) × List String :=
  let inv_frame := bitwise_not frame
  let params := blobParamsFor min_area max_area
  let blobs := detector params inv_frame
  (blobs.map blobBoundingRect, [])

/-- Claim C7: `detect_blobs` first inverts the frame (each 8-bit channel
value v maps to 255 - v), configures the blob detector with circularity no
less than 0.9, area within `[min_area, max_area]` and dark target colour,
runs it on the inverted frame, and returns exactly one minimal enclosing
axis-aligned bounding rectangle per detected blob keypoint, with no logging
side effect. -/
theorem detect_blobs_spec :
    (∀ (detector : BlobParams → Image → List KeyPoint) (frame : Image)
        (mn mx : ℚ),
      (detect_blobs detector frame mn mx).1 =
        (detector (blobParamsFor mn mx) (bitwise_not frame)).map blobBoundingRect
      ∧ (detect_blobs detector frame mn mx).1.length =
          (detector (blobParamsFor mn mx) (bitwise_not frame)).length
      ∧ (detect_blobs detector frame mn mx).2 = [])
    ∧ (∀ mn mx : ℚ,
        blobParamsFor mn mx =
          { filterByCircularity := true, minCircularity := 9 / 10,
            filterByArea := true, minArea := mn, maxArea := mx,
            filterByColor := true, blobColor := 0 })
    ∧ (∀ b g r : ℕ, b ≤ 255 → g ≤ 255 → r ≤ 255 →
        ((pxNot (b, g, r)).1 : ℤ) = 255 - (b : ℤ)
        ∧ ((pxNot (b, g, r)).2.1 : ℤ) = 255 - (g : ℤ)
        ∧ ((pxNot (b, g, r)).2.2 : ℤ) = 255 - (r : ℤ))
    ∧ (∀ (k : KeyPoint) (px py : ℚ), 0 ≤ k.size →
        (px - k.ptX) ^ 2 + (py - k.ptY) ^ 2 ≤ (k.size / 2) ^ 2 →
        (blobBoundingRect k).1 ≤ px
        ∧ px ≤ (blobBoundingRect k).1 + (blobBoundingRect k).2.2.1
        ∧ (blobBoundingRect k).2.1 ≤ py
        ∧ py ≤ (blobBoundingRect k).2.1 + (blobBoundingRect k).2.2.2)
    ∧ (∀ (k : KeyPoint) (a b c d : ℚ), 0 ≤ k.size →
        (∀ px py : ℚ,
          (px - k.ptX) ^ 2 + (py - k.ptY) ^ 2 ≤ (k.size / 2) ^ 2 →
          a ≤ px ∧ px ≤ a + c ∧ b ≤ py ∧ py ≤ b + d) →
        a ≤ (blobBoundingRect k).1
        ∧ (blobBoundingRect k).1 + (blobBoundingRect k).2.2.1 ≤ a + c
        ∧ b ≤ (blobBoundingRect k).2.1
        ∧ (blobBoundingRect k).2.1 + (blobBoundingRect k).2.2.2 ≤ b + d) := by
  refine ⟨?_, ?_, ?_, ?_, ?_⟩
  · intro detector frame mn mx
    refine ⟨rfl, ?_, rfl⟩
    simp [detect_blobs]
  · intro mn mx
    rfl
  · intro b g r hb hg hr
    refine ⟨?_, ?_, ?_⟩ <;> simp only [pxNot] <;> omega
  · intro k px py hs hmem
    simp only [blobBoundingRect]
    refine ⟨?_, ?_, ?_, ?_⟩
    · nlinarith [sq_nonneg (py - k.ptY), sq_nonneg (px - k.ptX + k.size / 2)]
    · nlinarith [sq_nonneg (py - k.ptY), sq_nonneg (px - k.ptX - k.size / 2)]
    · nlinarith [sq_nonneg (px - k.ptX), sq_nonneg (py - k.ptY + k.size / 2)]
    · nlinarith [sq_nonneg (px - k.ptX), sq_nonneg (py - k.ptY - k.size / 2)]
  · intro k a b c d hs hcont
    have hL := hcont (k.ptX - k.size / 2) k.ptY (by nlinarith)
    have hR := hcont (k.ptX + k.size / 2) k.ptY (by nlinarith)
    have hU := hcont k.ptX (k.ptY - k.size / 2) (by nlinarith)
    have hD := hcont k.ptX (k.ptY + k.size / 2) (by nlinarith)
    simp only [blobBoundingRect]
    refine ⟨hL.1, ?_, hU.2.2.1, ?_⟩
    · have := hR.2.1
      linarith
    · have := hD.2.2.2
      linarith

/-- Witness for `detect_blobs_spec` at a trivial concrete detector, the
all-black single-pixel frame, the pixel (0, 0, 0), and the unit-radius
keypoint at the origin. -/
theorem detect_blobs_spec_witness :
    (detect_blobs (fun _ _ => ([] : List KeyPoint)) [[(0, 0, 0)]] 100 400).2 = []
    ∧ ((pxNot (0, 0, 0)).1 : ℤ) = 255 - ((0 : ℕ) : ℤ)
    ∧ (blobBoundingRect ⟨0, 0, 2⟩).1 ≤ (0 : ℚ) :=
  ⟨(detect_blobs_spec.1 (fun _ _ => ([] : List KeyPoint)) [[(0, 0, 0)]]
      100 400).2.2,
   (detect_blobs_spec.2.2.1 0 0 0 (by decide) (by decide) (by decide)).1,
   (detect_blobs_spec.2.2.2.1 ⟨0, 0, 2⟩ 0 0 (by norm_num) (by norm_num)).1⟩

end SynchLive
